import Mathlib

/-!
Verification of the multi-lock acquisition protocol implemented by the
`lock_derive` crate (`src/lib.rs`).

The crate is a proc macro: `locks!(read: [..], write: [..])` parses its
argument into an `Args` value (a deduplicated, name-sorted list of
`(name, mode)` requests) and emits a `Locks::resolve()` function whose body
is a nested `and_then` chain of per-lock resolver futures.

We shallowly embed both stages:

* `parseSections`, `mergeRequests`, `dedupItems`, `sortItems`, `build`,
  `Args.parse` model `impl Parse for Args` (lib.rs lines 62-119).  The Rust
  code accumulates the merged requests in a `HashMap` whose iteration order
  is unspecified; since insertion fails on any repeated key, the keys are
  pairwise distinct, so the subsequent `sort_unstable_by` on names produces
  the same list for every iteration order.  We model the map by the
  insertion-order association list and prove order-independence separately.
* `Chain`, `write_resolve`, `Chain.run`, `resolve` model the future chain
  emitted by `write_resolve` (lib.rs lines 139-168).  In the generated code
  `inner_code` starts as `Ok(Locks { .. })` and the loop over the sorted
  items wraps it from the inside out, so the future for the *last* sorted
  item ends up outermost and is therefore polled first: the chain acquires
  the locks in descending sorted order.  `Chain.run` returns, besides the
  result, the trace of resolver invocations in execution order.

A resolver (`name!(resolve mode)` in the generated code) is modelled as a
function `String → ReadWrite → Except ε γ` where `γ` is the opaque guard
type and `ε` the resolver's error type.
-/

namespace LockDerive

instance {α β : Type} [DecidableEq α] [DecidableEq β] :
    DecidableEq (Except α β)
  | Except.error a, Except.error b =>
    if h : a = b then isTrue (by rw [h]) else isFalse (by simp [h])
  | Except.error _, Except.ok _ => isFalse (by simp)
  | Except.ok _, Except.error _ => isFalse (by simp)
  | Except.ok a, Except.ok b =>
    if h : a = b then isTrue (by rw [h]) else isFalse (by simp [h])

/-- Access mode of one lock request (lib.rs lines 121-125). -/
inductive ReadWrite : Type
  | Read : ReadWrite
  | Write : ReadWrite
deriving DecidableEq, Repr

/-- The parsed macro arguments: the deduplicated list of `(name, mode)`
requests, sorted by name (lib.rs lines 58-60). -/
structure Args : Type where
  items : List (String × ReadWrite)
deriving DecidableEq, Repr

/-- The errors `Args::parse` can raise (lib.rs lines 82, 86-89, 110). -/
inductive ParseError : Type
  | expectedReadOrWrite (sectionName : String) : ParseError
  | sectionTwice (sectionName : String) : ParseError
  | duplicateName (name : String) : ParseError
deriving DecidableEq, Repr

/-- The `while !stream.is_empty()` loop of `Args::parse` (lib.rs lines
64-91): each section is a keyword plus a bracketed name list; a keyword
other than `read`/`write` is rejected, and a repeated keyword raises
"`...` found more than once.". -/
def parseSections :
    List (String × List String) → Option (List String) → Option (List String) →
    Except ParseError (Option (List String) × Option (List String))
  | [], r, w => Except.ok (r, w)
  | (s, vec) :: rest, r, w =>
    if s = "read" then
      match r with
      | some _ => Except.error (ParseError.sectionTwice s)
      | none => parseSections rest (some vec) w
    else if s = "write" then
      match w with
      | some _ => Except.error (ParseError.sectionTwice s)
      | none => parseSections rest r (some vec)
    else Except.error (ParseError.expectedReadOrWrite s)

/-- Lines 94-104 of lib.rs: tag the read names with `Read`, the write names
with `Write`, and chain them (reads first). -/
def mergeRequests (r w : Option (List String)) : List (String × ReadWrite) :=
  (r.getD []).map (fun n => (n, ReadWrite.Read)) ++
    (w.getD []).map (fun n => (n, ReadWrite.Write))

/-- Lines 93 and 106-112 of lib.rs: insert each request into a set keyed by
name, failing with "Found multiple times." (whose span is the offending
name) on a repeated name.  The `HashMap` is modelled by the insertion-order
association list. -/
def dedupItems :
    List (String × ReadWrite) → List (String × ReadWrite) →
    Except ParseError (List (String × ReadWrite))
  | set, [] => Except.ok set
  | set, (n, m) :: rest =>
    if n ∈ set.map Prod.fst then Except.error (ParseError.duplicateName n)
    else dedupItems (set ++ [(n, m)]) rest

/-- Lexicographic comparison of character lists: the order `Ident::cmp`
uses on line 115 of lib.rs compares the identifier strings byte-wise, and
on UTF-8 data byte-wise order coincides with code-point order, which is
what Lean's `Char` ordering compares. -/
def charsLE : List Char → List Char → Bool
  | [], _ => true
  | _ :: _, [] => false
  | a :: as, b :: bs =>
    if a = b then charsLE as bs else decide (a < b)

/-- String comparison as performed by `a.0.cmp(&b.0)` on line 115. -/
def strLE (a b : String) : Bool := charsLE a.data b.data

theorem charsLE_total : ∀ a b : List Char, charsLE a b = true ∨ charsLE b a = true
  | [], _ => Or.inl rfl
  | _ :: _, [] => Or.inr rfl
  | a :: as, b :: bs => by
    by_cases h : a = b
    · subst h
      simpa [charsLE] using charsLE_total as bs
    · rcases lt_or_gt_of_ne h with hlt | hgt
      · exact Or.inl (by simp [charsLE, h, hlt])
      · exact Or.inr (by simp [charsLE, Ne.symm h, hgt])

theorem charsLE_trans :
    ∀ a b c : List Char,
      charsLE a b = true → charsLE b c = true → charsLE a c = true
  | [], _, _, _, _ => rfl
  | _ :: _, [], _, h, _ => by simp [charsLE] at h
  | _ :: _, _ :: _, [], _, h => by simp [charsLE] at h
  | a :: as, b :: bs, c :: cs, h1, h2 => by
    by_cases hab : a = b
    · subst hab
      by_cases hac : a = c
      · subst hac
        simp only [charsLE, if_pos rfl] at h1 h2 ⊢
        exact charsLE_trans as bs cs h1 h2
      · simp only [charsLE, if_pos rfl] at h1
        simp [charsLE, hac] at h2 ⊢
        exact h2
    · simp only [charsLE, if_neg hab, decide_eq_true_eq] at h1
      by_cases hbc : b = c
      · subst hbc
        simp [charsLE, hab, h1]
      · simp only [charsLE, if_neg hbc, decide_eq_true_eq] at h2
        have hac := lt_trans h1 h2
        simp [charsLE, ne_of_lt hac, hac]

theorem charsLE_antisymm :
    ∀ a b : List Char, charsLE a b = true → charsLE b a = true → a = b
  | [], [], _, _ => rfl
  | [], _ :: _, _, h => by simp [charsLE] at h
  | _ :: _, [], h, _ => by simp [charsLE] at h
  | a :: as, b :: bs, h1, h2 => by
    by_cases h : a = b
    · subst h
      simp only [charsLE, if_pos rfl] at h1 h2
      rw [charsLE_antisymm as bs h1 h2]
    · simp only [charsLE, if_neg h, if_neg (Ne.symm h), decide_eq_true_eq] at h1 h2
      exact absurd h2 (lt_asymm h1)

theorem strLE_total (a b : String) : strLE a b = true ∨ strLE b a = true :=
  charsLE_total a.data b.data

theorem strLE_trans {a b c : String} (h1 : strLE a b = true)
    (h2 : strLE b c = true) : strLE a c = true :=
  charsLE_trans a.data b.data c.data h1 h2

theorem strLE_antisymm {a b : String} (h1 : strLE a b = true)
    (h2 : strLE b a = true) : a = b :=
  String.ext (charsLE_antisymm a.data b.data h1 h2)

/-- The comparison `a.0.cmp(&b.0)` of line 115 as a relation on requests:
order requests by name. -/
def keyLE (a b : String × ReadWrite) : Prop := strLE a.1 b.1 = true

instance : DecidableRel keyLE :=
  fun a b => inferInstanceAs (Decidable (strLE a.1 b.1 = true))

instance : IsTotal (String × ReadWrite) keyLE :=
  ⟨fun a b => strLE_total a.1 b.1⟩

instance : IsTrans (String × ReadWrite) keyLE :=
  ⟨fun _ _ _ h1 h2 => strLE_trans h1 h2⟩

/-- Lines 114-115 of lib.rs: sort the request list by name.  The Rust sort
is unstable, but the keys are pairwise distinct when it is reached, so any
sorting algorithm gives the same result; we use insertion sort. -/
def sortItems (l : List (String × ReadWrite)) : List (String × ReadWrite) :=
  List.insertionSort keyLE l

/-- The request-set builder: lines 93-117 of `Args::parse`, acting on the
already-merged request list (the spec's `build`). -/
def build (requests : List (String × ReadWrite)) : Except ParseError Args :=
  (dedupItems [] requests).map (fun l => ⟨sortItems l⟩)

/-- The whole of `impl Parse for Args` (lib.rs lines 62-119). -/
def Args.parse (sections : List (String × List String)) :
    Except ParseError Args :=
  (parseSections sections none none).bind
    (fun rw => build (mergeRequests rw.1 rw.2))

/-- The shape of the future expression emitted by `write_resolve`:
`Chain.done` is `Ok(Locks { .. })`, and `Chain.step n m rest` is
`n!(resolve m).and_then(|__vi| rest)` (lib.rs lines 146-157). -/
inductive Chain : Type
  | done : Chain
  | step (name : String) (mode : ReadWrite) (rest : Chain) : Chain
deriving DecidableEq, Repr

/-- `write_resolve` (lib.rs lines 139-168): starting from
`Ok(Locks { .. })`, the loop over `args.items` wraps `inner_code` with
`name!(resolve mode).and_then(..)` once per item, in item order — so the
last item ends outermost. -/
def write_resolve (args : Args) : Chain :=
  args.items.foldl (fun code t => Chain.step t.1 t.2 code) Chain.done

/-- Runtime semantics of the emitted chain.  `env` is the list of guard
bindings `__vi` accumulated by the nested closures; at `done` the bindings
are bundled into `Locks` (each step prepends, and steps execute from the
last sorted item down to the first, so at `done` the bundle lists the
guards in `args.items` order, matching the emitted field list).  The first
component is the trace of resolver invocations, in execution order. -/
def Chain.run (resolver : String → ReadWrite → Except ε γ) :
    Chain → List (String × γ) →
    List (String × ReadWrite) × Except ε (List (String × γ))
  | Chain.done, env => ([], Except.ok env)
  | Chain.step n m rest, env =>
    match resolver n m with
    | Except.error e => ([(n, m)], Except.error e)
    | Except.ok g =>
      let p := Chain.run resolver rest ((n, g) :: env)
      ((n, m) :: p.1, p.2)

/-- `Locks::resolve()` for the given parsed arguments and resolver. -/
def resolve (args : Args) (resolver : String → ReadWrite → Except ε γ) :
    List (String × ReadWrite) × Except ε (List (String × γ)) :=
  (write_resolve args).run resolver []

/-- Reference recursion used in proofs: run the requests of a list in list
order, accumulating bindings.  `Chain.run` of `write_resolve args` equals
`runList` on `args.items.reverse`. -/
def runList (resolver : String → ReadWrite → Except ε γ) :
    List (String × ReadWrite) → List (String × γ) →
    List (String × ReadWrite) × Except ε (List (String × γ))
  | [], env => ([], Except.ok env)
  | (n, m) :: rest, env =>
    match resolver n m with
    | Except.error e => ([(n, m)], Except.error e)
    | Except.ok g =>
      let p := runList resolver rest ((n, g) :: env)
      ((n, m) :: p.1, p.2)

/-- The resolver invocations a run of the chain performs on a given request
list, in execution order: each request in turn, stopping at (and
including) the first failure. -/
def execTrace (resolver : String → ReadWrite → Except ε γ) :
    List (String × ReadWrite) → List (String × ReadWrite)
  | [] => []
  | (n, m) :: rest =>
    match resolver n m with
    | Except.error _ => [(n, m)]
    | Except.ok _ => (n, m) :: execTrace resolver rest

/-- End-to-end model at the request level: build, then (on success) run the
emitted chain; a build error surfaces as `Sum.inl`, a resolver error as
`Sum.inr`.  When the build fails the macro emits no chain, so the trace is
empty. -/
def buildResolve (requests : List (String × ReadWrite))
    (resolver : String → ReadWrite → Except ε γ) :
    List (String × ReadWrite) × Except (ParseError ⊕ ε) (List (String × γ)) :=
  match build requests with
  | Except.error e => ([], Except.error (Sum.inl e))
  | Except.ok args =>
    let p := resolve args resolver
    (p.1, p.2.mapError Sum.inr)

/-! ### Basic facts about the emitted chain -/

theorem run_write_resolve_eq_runList {ε γ : Type}
    (resolver : String → ReadWrite → Except ε γ)
    (l : List (String × ReadWrite)) :
    ∀ env,
      Chain.run resolver
        (l.foldl (fun code t => Chain.step t.1 t.2 code) Chain.done) env =
      runList resolver l.reverse env := by
  induction l using List.reverseRecOn with
  | nil => intro env; rfl
  | append_singleton l p ih =>
    intro env
    rw [List.foldl_append]
    show Chain.run resolver (Chain.step p.1 p.2 _) env = _
    rw [List.reverse_append]
    show _ = runList resolver ((p.1, p.2) :: l.reverse) env
    simp only [Chain.run, runList]
    cases resolver p.1 p.2 with
    | error e => rfl
    | ok g => simp only [ih ((p.1, g) :: env)]

theorem resolve_eq_runList {ε γ : Type}
    (resolver : String → ReadWrite → Except ε γ) (args : Args) :
    resolve args resolver = runList resolver args.items.reverse [] :=
  run_write_resolve_eq_runList resolver args.items []

theorem runList_trace {ε γ : Type}
    (resolver : String → ReadWrite → Except ε γ) :
    ∀ (l : List (String × ReadWrite)) (env : List (String × γ)),
      (runList resolver l env).1 = execTrace resolver l
  | [], _ => rfl
  | (n, m) :: rest, env => by
    simp only [runList, execTrace]
    cases resolver n m with
    | error e => rfl
    | ok g => simp only [runList_trace resolver rest ((n, g) :: env)]

theorem runList_ok_of_forall {ε γ : Type}
    (resolver : String → ReadWrite → Except ε γ)
    (g : String × ReadWrite → γ) :
    ∀ (l : List (String × ReadWrite)) (env : List (String × γ)),
      (∀ p ∈ l, resolver p.1 p.2 = Except.ok (g p)) →
      runList resolver l env =
        (l, Except.ok (l.reverse.map (fun p => (p.1, g p)) ++ env))
  | [], env, _ => rfl
  | (n, m) :: rest, env, h => by
    have hn : resolver n m = Except.ok (g (n, m)) := h (n, m) (by simp)
    have hrest : ∀ p ∈ rest, resolver p.1 p.2 = Except.ok (g p) :=
      fun p hp => h p (by simp [hp])
    simp only [runList, hn,
      runList_ok_of_forall resolver g rest ((n, g (n, m)) :: env) hrest,
      List.reverse_cons, List.map_append, List.append_assoc, List.map_cons,
      List.map_nil, List.singleton_append]

theorem runList_ok_names {ε γ : Type}
    (resolver : String → ReadWrite → Except ε γ) :
    ∀ (l : List (String × ReadWrite)) (env : List (String × γ))
      (tr : List (String × ReadWrite)) (gs : List (String × γ)),
      runList resolver l env = (tr, Except.ok gs) →
      gs.map Prod.fst = l.reverse.map Prod.fst ++ env.map Prod.fst
  | [], env, tr, gs, h => by
    injection h with h1 h2
    injection h2 with h3
    simp [← h3]
  | (n, m) :: rest, env, tr, gs, h => by
    simp only [runList] at h
    cases hr : resolver n m with
    | error e => rw [hr] at h; injection h with h1 h2; cases h2
    | ok g =>
      rw [hr] at h
      simp only at h
      injection h with h1 h2
      have := runList_ok_names resolver rest ((n, g) :: env)
        (runList resolver rest ((n, g) :: env)).1 gs (by rw [← h2])
      simpa [List.append_assoc] using this

theorem runList_error_of_middle {ε γ : Type}
    (resolver : String → ReadWrite → Except ε γ) :
    ∀ (pre : List (String × ReadWrite)) (n : String) (m : ReadWrite)
      (rest : List (String × ReadWrite)) (env : List (String × γ)) (e : ε),
      (∀ p ∈ pre, ∃ g, resolver p.1 p.2 = Except.ok g) →
      resolver n m = Except.error e →
      (runList resolver (pre ++ (n, m) :: rest) env).2 = Except.error e
  | [], n, m, rest, env, e, _, hn => by simp [runList, hn]
  | (q, mq) :: pre, n, m, rest, env, e, hpre, hn => by
    obtain ⟨g, hg⟩ := hpre (q, mq) (by simp)
    simp only [List.cons_append, runList, hg]
    exact runList_error_of_middle resolver pre n m rest ((q, g) :: env) e
      (fun p hp => hpre p (by simp [hp])) hn

theorem runList_error_last {ε γ : Type}
    (resolver : String → ReadWrite → Except ε γ) :
    ∀ (l : List (String × ReadWrite)) (env : List (String × γ)) (e : ε),
      (runList resolver l env).2 = Except.error e →
      ∃ tr' p, (runList resolver l env).1 = tr' ++ [p] ∧
        resolver p.1 p.2 = Except.error e ∧
        ∀ q ∈ tr', ∃ g, resolver q.1 q.2 = Except.ok g
  | [], env, e, h => by simp [runList] at h
  | (n, m) :: rest, env, e, h => by
    cases hr : resolver n m with
    | error e' =>
      have : e' = e := by
        simp only [runList, hr] at h
        injection h
      subst this
      exact ⟨[], (n, m), by simp [runList, hr], hr, by simp⟩
    | ok g =>
      simp only [runList, hr] at h ⊢
      obtain ⟨tr', p, htr, hp, hall⟩ :=
        runList_error_last resolver rest ((n, g) :: env) e h
      refine ⟨(n, m) :: tr', p, by simp [htr], hp, ?_⟩
      intro q hq
      rcases List.mem_cons.mp hq with hq | hq
      · exact ⟨g, by rw [hq]; exact hr⟩
      · exact hall q hq

/-! ### Basic facts about the builder -/

theorem dedupItems_ok :
    ∀ (requests set : List (String × ReadWrite)),
      ((set ++ requests).map Prod.fst).Nodup →
      dedupItems set requests = Except.ok (set ++ requests)
  | [], set, _ => by simp [dedupItems]
  | (n, m) :: rest, set, h => by
    have hn : n ∉ set.map Prod.fst := by
      simp only [List.map_append, List.map_cons, List.nodup_append] at h
      intro hmem
      exact h.2.2 hmem (by simp)
    rw [List.append_cons] at h
    simp only [dedupItems, if_neg hn]
    rw [dedupItems_ok rest (set ++ [(n, m)]) h]
    simp

theorem build_ok {requests : List (String × ReadWrite)}
    (h : (requests.map Prod.fst).Nodup) :
    build requests = Except.ok ⟨sortItems requests⟩ := by
  unfold build
  rw [dedupItems_ok requests [] (by simpa using h)]
  rfl

theorem sortItems_perm (l : List (String × ReadWrite)) :
    (sortItems l).Perm l :=
  List.perm_insertionSort keyLE l

theorem sortItems_sorted (l : List (String × ReadWrite)) :
    List.Sorted keyLE (sortItems l) :=
  List.sorted_insertionSort keyLE l

/-- Strict version of `keyLE`: strictly smaller name. -/
def keyLT (a b : String × ReadWrite) : Prop := keyLE a b ∧ a.1 ≠ b.1

instance : IsAntisymm (String × ReadWrite) keyLT :=
  ⟨fun _ _ h1 h2 => absurd (strLE_antisymm h1.1 h2.1) h1.2⟩

theorem pairwise_keyLT {l : List (String × ReadWrite)}
    (hs : List.Sorted keyLE l) (hn : (l.map Prod.fst).Nodup) :
    List.Pairwise keyLT l := by
  have hne : List.Pairwise (fun a b : String × ReadWrite => a.1 ≠ b.1) l := by
    rw [List.Nodup, List.pairwise_map] at hn
    exact hn
  exact hs.and hne

theorem sortItems_eq_of_perm {l1 l2 : List (String × ReadWrite)}
    (hp : l1.Perm l2) (hn : (l1.map Prod.fst).Nodup) :
    sortItems l1 = sortItems l2 := by
  have hn1 : ((sortItems l1).map Prod.fst).Nodup :=
    ((sortItems_perm l1).map Prod.fst).nodup_iff.mpr hn
  have hn2 : ((sortItems l2).map Prod.fst).Nodup :=
    ((sortItems_perm l2).map Prod.fst).nodup_iff.mpr
      ((hp.map Prod.fst).nodup_iff.mp hn)
  exact List.eq_of_perm_of_sorted
    ((sortItems_perm l1).trans (hp.trans (sortItems_perm l2).symm))
    (pairwise_keyLT (sortItems_sorted l1) hn1)
    (pairwise_keyLT (sortItems_sorted l2) hn2)

/-! ### The claims -/

/-- Claim C1: for every input collection of `(name, mode)` requests with no
duplicate names, the builder (lines 93-117 of `Args::parse`) succeeds and
produces the permutation of the input that is sorted in ascending name
order, and the output is identical for any two input collections holding
the same pairs in different orders. -/
theorem build_sorted_deterministic
    (r1 r2 : List (String × ReadWrite))
    (hn : (r1.map Prod.fst).Nodup) (hp : r1.Perm r2) :
    ∃ a : Args, build r1 = Except.ok a ∧ build r2 = Except.ok a ∧
      a.items.Perm r1 ∧ List.Sorted keyLE a.items := by
  refine ⟨⟨sortItems r1⟩, build_ok hn, ?_, sortItems_perm r1, sortItems_sorted r1⟩
  rw [build_ok ((hp.map Prod.fst).nodup_iff.mp hn)]
  rw [sortItems_eq_of_perm hp hn]

/-- Witness for C1 at the spec's example input. -/
theorem build_sorted_deterministic_witness :
    ((([("b", ReadWrite.Write), ("a", ReadWrite.Read)] :
        List (String × ReadWrite)).map Prod.fst).Nodup ∧
      ([("b", ReadWrite.Write), ("a", ReadWrite.Read)] :
        List (String × ReadWrite)).Perm
        [("a", ReadWrite.Read), ("b", ReadWrite.Write)]) ∧
    ∃ a : Args,
      build [("b", ReadWrite.Write), ("a", ReadWrite.Read)] = Except.ok a ∧
      build [("a", ReadWrite.Read), ("b", ReadWrite.Write)] = Except.ok a ∧
      a.items.Perm [("b", ReadWrite.Write), ("a", ReadWrite.Read)] ∧
      List.Sorted keyLE a.items :=
  ⟨⟨by decide, by decide⟩,
    build_sorted_deterministic
      [("b", ReadWrite.Write), ("a", ReadWrite.Read)]
      [("a", ReadWrite.Read), ("b", ReadWrite.Write)]
      (by decide) (by decide)⟩

/-- A resolver that always succeeds, returning the requested name as the
guard. -/
def okResolver : String → ReadWrite → Except Unit String :=
  fun n _ => Except.ok n

/-- Claim C2 (counterexample): on the spec's own example input
`[("b", Write), ("a", Read)]` the builder yields the ascending item list
`[("a", Read), ("b", Write)]`, but the emitted chain invokes the resolver
for "b" first: the invocation trace is `[("b", Write), ("a", Read)]`, not
`[("a", Read), ("b", Write)]` — the claim that "a" is resolved before "b"
fails. -/
theorem resolve_order_counterexample :
    build [("b", ReadWrite.Write), ("a", ReadWrite.Read)] =
      Except.ok ⟨[("a", ReadWrite.Read), ("b", ReadWrite.Write)]⟩ ∧
    (resolve ⟨[("a", ReadWrite.Read), ("b", ReadWrite.Write)]⟩
        okResolver).1 =
      [("b", ReadWrite.Write), ("a", ReadWrite.Read)] ∧
    (resolve ⟨[("a", ReadWrite.Read), ("b", ReadWrite.Write)]⟩
        okResolver).1 ≠
      [("a", ReadWrite.Read), ("b", ReadWrite.Write)] :=
  ⟨by decide, rfl, by decide⟩

/-- Claim C2 (amended): the emitted chain invokes the resolver strictly in
DESCENDING sorted order — the loop in `write_resolve` wraps `inner_code`
from the inside out, leaving the last sorted item outermost — and each
invocation begins only after the previous one succeeded: the invocation
trace of the composed operation is exactly the short-circuiting
left-to-right traversal of the reversed sorted item list.  In particular
for input `{("b", Write), ("a", Read)}` the resolver is invoked for "b"
before "a". -/
theorem resolve_trace_eq_execTrace {ε γ : Type}
    (resolver : String → ReadWrite → Except ε γ) (args : Args) :
    (resolve args resolver).1 = execTrace resolver args.items.reverse := by
  rw [resolve_eq_runList, runList_trace]

/-- Claim C3: if the resolver succeeds on every request of the set, the
composed operation succeeds with a bundle holding exactly one guard per
requested name — the guard the resolver returned for that request — keyed
in item order. -/
theorem resolve_ok_of_all_ok {ε γ : Type}
    (resolver : String → ReadWrite → Except ε γ) (args : Args)
    (g : String × ReadWrite → γ)
    (h : ∀ p ∈ args.items, resolver p.1 p.2 = Except.ok (g p)) :
    (resolve args resolver).2 =
      Except.ok (args.items.map (fun p => (p.1, g p))) := by
  rw [resolve_eq_runList]
  rw [runList_ok_of_forall resolver g args.items.reverse []
    (fun p hp => h p (List.mem_reverse.mp hp))]
  simp

/-- Witness for C3 on a one-request set. -/
theorem resolve_ok_of_all_ok_witness :
    (∀ p ∈ (Args.mk [("a", ReadWrite.Read)]).items,
      okResolver p.1 p.2 = Except.ok (Prod.fst p)) ∧
    (resolve ⟨[("a", ReadWrite.Read)]⟩ okResolver).2 =
      Except.ok ([("a", ReadWrite.Read)].map (fun p => (p.1, Prod.fst p))) :=
  ⟨by decide,
    resolve_ok_of_all_ok okResolver ⟨[("a", ReadWrite.Read)]⟩ Prod.fst
      (by decide)⟩

/-- Claim C4: the composed operation is all-or-nothing: it either succeeds
with a bundle naming every requested name, or fails carrying only an error
value — the `Except` result exposes no guard on the error side, so no
outcome exposes guards for a proper subset of the requests. -/
theorem resolve_all_or_nothing {ε γ : Type}
    (resolver : String → ReadWrite → Except ε γ) (args : Args) :
    (∃ gs, (resolve args resolver).2 = Except.ok gs ∧
        gs.map Prod.fst = args.items.map Prod.fst) ∨
    (∃ e, (resolve args resolver).2 = Except.error e) := by
  rw [resolve_eq_runList]
  cases hres : (runList resolver args.items.reverse []).2 with
  | ok gs =>
    left
    refine ⟨gs, rfl, ?_⟩
    have heq : runList resolver args.items.reverse [] =
        ((runList resolver args.items.reverse []).1, Except.ok gs) := by
      rw [← hres]
    have := runList_ok_names resolver args.items.reverse []
      (runList resolver args.items.reverse []).1 gs heq
    simpa using this
  | error e => exact Or.inr ⟨e, rfl⟩

/-- Claim C8: the empty request collection builds to the empty request set,
and the composed operation on it succeeds with the empty bundle while
invoking the resolver zero times (empty trace). -/
theorem empty_requests_trivial {ε γ : Type}
    (resolver : String → ReadWrite → Except ε γ) :
    build ([] : List (String × ReadWrite)) = Except.ok ⟨[]⟩ ∧
    resolve ⟨[]⟩ resolver = ([], Except.ok []) :=
  ⟨rfl, rfl⟩

theorem dedupItems_error_of_dup :
    ∀ (requests set : List (String × ReadWrite)),
      (set.map Prod.fst).Nodup →
      ¬ ((set ++ requests).map Prod.fst).Nodup →
      ∃ n, dedupItems set requests = Except.error (ParseError.duplicateName n) ∧
        2 ≤ ((set ++ requests).map Prod.fst).count n
  | [], set, hset, hdup => absurd (by simpa using hset) (by simpa using hdup)
  | (n, m) :: rest, set, hset, hdup => by
    by_cases hn : n ∈ set.map Prod.fst
    · refine ⟨n, by simp [dedupItems, hn], ?_⟩
      have h1 : 1 ≤ (set.map Prod.fst).count n := List.count_pos_iff.mpr hn
      have h2 : (((n, m) :: rest).map Prod.fst).count n =
          (rest.map Prod.fst).count n + 1 := by
        simp [List.count_cons_self]
      rw [List.map_append, List.count_append, h2]
      omega
    · have hset' : ((set ++ [(n, m)]).map Prod.fst).Nodup := by
        simp only [List.map_append, List.map_cons, List.map_nil, List.nodup_append]
        refine ⟨hset, List.nodup_singleton n, ?_⟩
        intro a ha hmem
        rw [List.mem_singleton] at hmem
        subst hmem
        exact hn ha
      rw [List.append_cons] at hdup
      obtain ⟨q, hres, hcount⟩ :=
        dedupItems_error_of_dup rest (set ++ [(n, m)]) hset' hdup
      refine ⟨q, by simp [dedupItems, hn, hres], ?_⟩
      rw [List.append_cons]
      exact hcount

/-- Claim C5: for every input collection in which some name repeats (in
either mode), the builder fails with the duplicate-name error identifying
an offending name — a name occurring at least twice — and the end-to-end
operation performs zero resolver invocations. -/
theorem build_duplicate_error {ε γ : Type}
    (requests : List (String × ReadWrite))
    (h : ¬ (requests.map Prod.fst).Nodup) :
    ∃ n, build requests = Except.error (ParseError.duplicateName n) ∧
      2 ≤ (requests.map Prod.fst).count n ∧
      ∀ resolver : String → ReadWrite → Except ε γ,
        (buildResolve requests resolver).1 = [] := by
  obtain ⟨n, hres, hcount⟩ :=
    dedupItems_error_of_dup requests [] (by simp) (by simpa using h)
  have hbuild : build requests = Except.error (ParseError.duplicateName n) := by
    unfold build
    rw [hres]
    rfl
  exact ⟨n, hbuild, by simpa using hcount,
    fun resolver => by simp [buildResolve, hbuild]⟩

/-- Witness for C5: the same name requested as read and as write. -/
theorem build_duplicate_error_witness :
    (¬ ((([("a", ReadWrite.Read), ("a", ReadWrite.Write)] :
        List (String × ReadWrite))).map Prod.fst).Nodup) ∧
    ∃ n, build [("a", ReadWrite.Read), ("a", ReadWrite.Write)] =
        Except.error (ParseError.duplicateName n) ∧
      2 ≤ (([("a", ReadWrite.Read), ("a", ReadWrite.Write)] :
          List (String × ReadWrite)).map Prod.fst).count n ∧
      ∀ resolver : String → ReadWrite → Except Unit String,
        (buildResolve [("a", ReadWrite.Read), ("a", ReadWrite.Write)]
            resolver).1 = [] :=
  ⟨by decide,
    build_duplicate_error [("a", ReadWrite.Read), ("a", ReadWrite.Write)]
      (by decide)⟩

/-- A resolver that fails on both requested names, with distinguishable
errors. -/
def failBothResolver : String → ReadWrite → Except String Unit :=
  fun n _ => if n = "a" then Except.error "ea" else Except.error "eb"

/-- Claim C6 (counterexample): take the sorted set
`[("a", Read), ("b", Read)]` and a resolver failing on "a" with cause "ea"
(so the resolver fails on the first sorted request, all earlier requests
trivially having succeeded) and on "b" with cause "eb".  The claim then
requires an error naming "a" and carrying "ea"; but the emitted chain
attempts "b" first and the run's result is the bare resolver error "eb" —
it does not carry the cause for "a", and the result type carries no
request name at all. -/
theorem resolve_error_counterexample :
    build [("a", ReadWrite.Read), ("b", ReadWrite.Read)] =
      Except.ok ⟨[("a", ReadWrite.Read), ("b", ReadWrite.Read)]⟩ ∧
    failBothResolver "a" ReadWrite.Read = Except.error "ea" ∧
    (resolve ⟨[("a", ReadWrite.Read), ("b", ReadWrite.Read)]⟩
        failBothResolver).2 = Except.error "eb" ∧
    ("eb" : String) ≠ "ea" :=
  ⟨by decide, by decide, by decide, by decide⟩

/-- Claim C6 (amended): if the resolver fails on the k-th request in
sorted order and succeeds on every request after it in sorted order — the
requests the emitted chain attempts first — then the composed operation
fails with exactly the underlying resolver error of that k-th request,
propagated unwrapped (no error value naming the request is introduced). -/
theorem resolve_error_of_failure {ε γ : Type}
    (resolver : String → ReadWrite → Except ε γ) (args : Args)
    (before after : List (String × ReadWrite)) (n : String) (m : ReadWrite)
    (e : ε)
    (hsplit : args.items = before ++ (n, m) :: after)
    (hafter : ∀ p ∈ after, ∃ g, resolver p.1 p.2 = Except.ok g)
    (hfail : resolver n m = Except.error e) :
    (resolve args resolver).2 = Except.error e := by
  rw [resolve_eq_runList, hsplit]
  have hrev : (before ++ (n, m) :: after).reverse =
      after.reverse ++ (n, m) :: before.reverse := by
    simp
  rw [hrev]
  exact runList_error_of_middle resolver after.reverse n m before.reverse [] e
    (fun p hp => hafter p (List.mem_reverse.mp hp)) hfail

/-- A resolver failing on "a" only. -/
def failAResolver : String → ReadWrite → Except String Unit :=
  fun n _ => if n = "a" then Except.error "ea" else Except.ok ()

/-- Witness for the amended C6: "a" fails with "ea", the later request "b"
succeeds, and the run reports exactly "ea". -/
theorem resolve_error_of_failure_witness :
    ((Args.mk [("a", ReadWrite.Read), ("b", ReadWrite.Read)]).items =
        [] ++ ("a", ReadWrite.Read) :: [("b", ReadWrite.Read)]) ∧
    (∀ p ∈ [("b", ReadWrite.Read)],
      ∃ g, failAResolver (Prod.fst p) (Prod.snd p) = Except.ok g) ∧
    failAResolver "a" ReadWrite.Read = Except.error "ea" ∧
    (resolve ⟨[("a", ReadWrite.Read), ("b", ReadWrite.Read)]⟩
        failAResolver).2 = Except.error "ea" :=
  ⟨rfl,
    by
      intro p hp
      rw [List.mem_singleton] at hp
      subst hp
      exact ⟨(), by decide⟩,
    by decide,
    resolve_error_of_failure failAResolver
      ⟨[("a", ReadWrite.Read), ("b", ReadWrite.Read)]⟩
      [] [("b", ReadWrite.Read)] "a" ReadWrite.Read "ea" rfl
      (by
        intro p hp
        rw [List.mem_singleton] at hp
        subst hp
        exact ⟨(), by decide⟩)
      (by decide)⟩

theorem dedupItems_nodup :
    ∀ (requests set out : List (String × ReadWrite)),
      (set.map Prod.fst).Nodup →
      dedupItems set requests = Except.ok out →
      (out.map Prod.fst).Nodup
  | [], set, out, hset, h => by
    injection h with h
    subst h
    exact hset
  | (n, m) :: rest, set, out, hset, h => by
    by_cases hn : n ∈ set.map Prod.fst
    · simp [dedupItems, hn] at h
    · rw [dedupItems, if_neg hn] at h
      refine dedupItems_nodup rest (set ++ [(n, m)]) out ?_ h
      simp only [List.map_append, List.map_cons, List.map_nil, List.nodup_append]
      refine ⟨hset, List.nodup_singleton n, ?_⟩
      intro a ha hmem
      rw [List.mem_singleton] at hmem
      subst hmem
      exact hn ha

theorem build_ok_inv {requests : List (String × ReadWrite)} {a : Args}
    (h : build requests = Except.ok a) :
    List.Sorted keyLE a.items ∧ (a.items.map Prod.fst).Nodup := by
  unfold build at h
  cases hd : dedupItems [] requests with
  | error e => rw [hd] at h; cases h
  | ok l =>
    rw [hd] at h
    injection h with h
    have hnd : (l.map Prod.fst).Nodup :=
      dedupItems_nodup requests [] l (by simp) hd
    constructor
    · rw [← h]; exact sortItems_sorted l
    · rw [← h]
      exact ((sortItems_perm l).map Prod.fst).nodup_iff.mpr hnd

/-- The order in which a fully successful run of the emitted chain
attempts the locks: the reversed sorted name list (cf. the amended C2). -/
def attemptOrder (args : Args) : List String :=
  (args.items.map Prod.fst).reverse

/-- For any built request set, `attemptOrder` is strictly descending. -/
theorem attemptOrder_pairwise {requests : List (String × ReadWrite)}
    {a : Args} (h : build requests = Except.ok a) :
    List.Pairwise (fun x y : String => strLE y x = true ∧ y ≠ x)
      (attemptOrder a) := by
  obtain ⟨hsorted, hnodup⟩ := build_ok_inv h
  have hlt : List.Pairwise keyLT a.items := pairwise_keyLT hsorted hnodup
  have hmap : List.Pairwise (fun x y : String => strLE x y = true ∧ x ≠ y)
      (a.items.map Prod.fst) := by
    rw [List.pairwise_map]
    exact hlt.imp (fun hxy => ⟨hxy.1, hxy.2⟩)
  unfold attemptOrder
  rw [List.pairwise_reverse]
  exact hmap

theorem indexOf_lt_indexOf_iff {l : List String} {R : String → String → Prop}
    (hpw : List.Pairwise R l)
    (hasym : ∀ x y : String, R x y → R y x → False)
    {n m : String} (hn : n ∈ l) (hm : m ∈ l) (hnm : n ≠ m) :
    (l.indexOf n < l.indexOf m ↔ R n m) := by
  have hin : l.indexOf n < l.length := List.indexOf_lt_length.mpr hn
  have him : l.indexOf m < l.length := List.indexOf_lt_length.mpr hm
  have hgn : l[l.indexOf n] = n := List.getElem_indexOf hin
  have hgm : l[l.indexOf m] = m := List.getElem_indexOf him
  rw [List.pairwise_iff_getElem] at hpw
  constructor
  · intro hlt
    have := hpw (l.indexOf n) (l.indexOf m) hin him hlt
    rwa [hgn, hgm] at this
  · intro hR
    rcases Nat.lt_trichotomy (l.indexOf n) (l.indexOf m) with h | h | h
    · exact h
    · exact absurd ((List.indexOf_inj hn hm).mp h) hnm
    · have := hpw (l.indexOf m) (l.indexOf n) him hin h
      rw [hgn, hgm] at this
      exact (hasym n m hR this).elim

/-- Claim C9: for any two calls whose built request sets share names, the
relative order in which the two runs attempt any two shared names is
identical (both runs attempt the strictly larger name first), so no
deadlock cycle can arise from a lock-order mismatch between the two
calls. -/
theorem shared_names_same_attempt_order
    (r1 r2 : List (String × ReadWrite)) (a1 a2 : Args)
    (h1 : build r1 = Except.ok a1) (h2 : build r2 = Except.ok a2)
    (n m : String)
    (hn1 : n ∈ attemptOrder a1) (hn2 : n ∈ attemptOrder a2)
    (hm1 : m ∈ attemptOrder a1) (hm2 : m ∈ attemptOrder a2) :
    ((attemptOrder a1).indexOf n < (attemptOrder a1).indexOf m ↔
      (attemptOrder a2).indexOf n < (attemptOrder a2).indexOf m) := by
  by_cases hnm : n = m
  · subst hnm; simp
  · have hasym : ∀ x y : String,
        (strLE y x = true ∧ y ≠ x) → (strLE x y = true ∧ x ≠ y) → False :=
      fun x y hxy hyx => hxy.2 (strLE_antisymm hxy.1 hyx.1)
    rw [indexOf_lt_indexOf_iff (attemptOrder_pairwise h1) hasym hn1 hm1 hnm]
    rw [indexOf_lt_indexOf_iff (attemptOrder_pairwise h2) hasym hn2 hm2 hnm]

/-- Witness for C9: two overlapping request sets sharing "b" and "c". -/
theorem shared_names_same_attempt_order_witness :
    (build [("a", ReadWrite.Read), ("c", ReadWrite.Write), ("b", ReadWrite.Read)] =
        Except.ok ⟨[("a", ReadWrite.Read), ("b", ReadWrite.Read),
          ("c", ReadWrite.Write)]⟩) ∧
    (build [("c", ReadWrite.Read), ("b", ReadWrite.Write)] =
        Except.ok ⟨[("b", ReadWrite.Write), ("c", ReadWrite.Read)]⟩) ∧
    ((attemptOrder ⟨[("a", ReadWrite.Read), ("b", ReadWrite.Read),
          ("c", ReadWrite.Write)]⟩).indexOf "b" <
        (attemptOrder ⟨[("a", ReadWrite.Read), ("b", ReadWrite.Read),
          ("c", ReadWrite.Write)]⟩).indexOf "c" ↔
      (attemptOrder ⟨[("b", ReadWrite.Write), ("c", ReadWrite.Read)]⟩).indexOf "b" <
        (attemptOrder ⟨[("b", ReadWrite.Write), ("c", ReadWrite.Read)]⟩).indexOf "c") :=
  ⟨by decide, by decide,
    shared_names_same_attempt_order
      [("a", ReadWrite.Read), ("c", ReadWrite.Write), ("b", ReadWrite.Read)]
      [("c", ReadWrite.Read), ("b", ReadWrite.Write)]
      ⟨[("a", ReadWrite.Read), ("b", ReadWrite.Read), ("c", ReadWrite.Write)]⟩
      ⟨[("b", ReadWrite.Write), ("c", ReadWrite.Read)]⟩
      (by decide) (by decide) "b" "c"
      (by decide) (by decide) (by decide) (by decide)⟩

/-- Claim C7: once a resolver invocation fails, the chain invokes nothing
further: on any failing run the invocation trace consists of successful
invocations followed by exactly the failing one, which is the last entry —
the failure leads directly to the terminal failed result. -/
theorem resolve_stops_at_failure {ε γ : Type}
    (resolver : String → ReadWrite → Except ε γ) (args : Args) (e : ε)
    (h : (resolve args resolver).2 = Except.error e) :
    ∃ tr p, (resolve args resolver).1 = tr ++ [p] ∧
      resolver p.1 p.2 = Except.error e ∧
      ∀ q ∈ tr, ∃ g, resolver q.1 q.2 = Except.ok g := by
  rw [resolve_eq_runList] at h ⊢
  exact runList_error_last resolver args.items.reverse [] e h

/-- Witness for C7: the failing run of the amended-C6 scenario. -/
theorem resolve_stops_at_failure_witness :
    ((resolve ⟨[("a", ReadWrite.Read), ("b", ReadWrite.Read)]⟩
        failAResolver).2 = Except.error "ea") ∧
    ∃ tr p,
      (resolve ⟨[("a", ReadWrite.Read), ("b", ReadWrite.Read)]⟩
          failAResolver).1 = tr ++ [p] ∧
      failAResolver (Prod.fst p) (Prod.snd p) = Except.error "ea" ∧
      ∀ q ∈ tr, ∃ g, failAResolver (Prod.fst q) (Prod.snd q) = Except.ok g :=
  ⟨by decide,
    resolve_stops_at_failure failAResolver
      ⟨[("a", ReadWrite.Read), ("b", ReadWrite.Read)]⟩ "ea" (by decide)⟩

theorem parseSections_sectionTwice_mem :
    ∀ (sections : List (String × List String)) (r w : Option (List String))
      (s : String),
      parseSections sections r w = Except.error (ParseError.sectionTwice s) →
      s ∈ sections.map Prod.fst
  | [], _, _, _, h => by cases h
  | (s0, v) :: rest, r, w, s, h => by
    by_cases h0 : s0 = "read"
    · subst h0
      cases r with
      | some vr =>
        simp only [parseSections, if_pos rfl] at h
        injection h with h
        injection h with h
        simp [h]
      | none =>
        simp only [parseSections, if_pos rfl] at h
        rw [List.map_cons]
        exact List.mem_cons_of_mem _
          (parseSections_sectionTwice_mem rest (some v) w s h)
    · by_cases h1 : s0 = "write"
      · subst h1
        cases w with
        | some vw =>
          simp only [parseSections, if_neg h0, if_pos rfl] at h
          injection h with h
          injection h with h
          simp [h]
        | none =>
          simp only [parseSections, if_neg h0, if_pos rfl] at h
          rw [List.map_cons]
          exact List.mem_cons_of_mem _
            (parseSections_sectionTwice_mem rest r (some v) s h)
      · simp only [parseSections, if_neg h0, if_neg h1] at h
        injection h with h
        cases h

theorem parseSections_error :
    ∀ (sections : List (String × List String)) (r w : Option (List String)),
      (∀ p ∈ sections, p.1 = "read" ∨ p.1 = "write") →
      (("read" ∈ sections.map Prod.fst ∧ r.isSome = true) ∨
        ("write" ∈ sections.map Prod.fst ∧ w.isSome = true) ∨
        ¬ (sections.map Prod.fst).Nodup) →
      ∃ s, (s = "read" ∨ s = "write") ∧
        parseSections sections r w = Except.error (ParseError.sectionTwice s) ∧
        ((s = "read" ∧ r.isSome = true) ∨ (s = "write" ∧ w.isSome = true) ∨
          2 ≤ (sections.map Prod.fst).count s)
  | [], r, w, _, hbad => by
    rcases hbad with ⟨h, _⟩ | ⟨h, _⟩ | h
    · simp at h
    · simp at h
    · exact absurd (by simp) h
  | (s0, v) :: rest, r, w, hvalid, hbad => by
    have hvrest : ∀ p ∈ rest, p.1 = "read" ∨ p.1 = "write" :=
      fun p hp => hvalid p (by simp [hp])
    rcases hvalid (s0, v) (by simp) with hs | hs
    · subst hs
      cases r with
      | some vr =>
        refine ⟨"read", Or.inl rfl, by simp [parseSections], ?_⟩
        exact Or.inl ⟨rfl, rfl⟩
      | none =>
        have hstep : parseSections (("read", v) :: rest) none w =
            parseSections rest (some v) w := by
          simp [parseSections]
        have hbad' : ("read" ∈ rest.map Prod.fst ∧
              (some v : Option (List String)).isSome = true) ∨
            ("write" ∈ rest.map Prod.fst ∧ w.isSome = true) ∨
            ¬ (rest.map Prod.fst).Nodup := by
          rcases hbad with ⟨_, hsome⟩ | ⟨hmem, hsome⟩ | hnd
          · cases hsome
          · rw [List.map_cons] at hmem
            rcases List.mem_cons.mp hmem with hh | hh
            · simp at hh
            · exact Or.inr (Or.inl ⟨hh, hsome⟩)
          · rw [List.map_cons, List.nodup_cons] at hnd
            by_cases hr : "read" ∈ rest.map Prod.fst
            · exact Or.inl ⟨hr, rfl⟩
            · exact Or.inr (Or.inr (fun hnodup => hnd ⟨hr, hnodup⟩))
        obtain ⟨s, hsv, herr, hloc⟩ :=
          parseSections_error rest (some v) w hvrest hbad'
        refine ⟨s, hsv, by rw [hstep]; exact herr, ?_⟩
        rcases hloc with ⟨hse, _⟩ | ⟨hse, hsome⟩ | hcount
        · subst hse
          refine Or.inr (Or.inr ?_)
          have h1 : 0 < (rest.map Prod.fst).count "read" :=
            List.count_pos_iff.mpr
              (parseSections_sectionTwice_mem rest (some v) w "read" herr)
          have h2 : ((("read", v) :: rest).map Prod.fst).count "read" =
              (rest.map Prod.fst).count "read" + 1 := by
            simp
          omega
        · exact Or.inr (Or.inl ⟨hse, hsome⟩)
        · refine Or.inr (Or.inr ?_)
          have hle : (rest.map Prod.fst).count s ≤
              ((("read", v) :: rest).map Prod.fst).count s := by
            rw [List.map_cons, List.count_cons]
            omega
          omega
    · subst hs
      cases w with
      | some vw =>
        refine ⟨"write", Or.inr rfl, by simp [parseSections], ?_⟩
        exact Or.inr (Or.inl ⟨rfl, rfl⟩)
      | none =>
        have hstep : parseSections (("write", v) :: rest) r none =
            parseSections rest r (some v) := by
          simp [parseSections]
        have hbad' : ("read" ∈ rest.map Prod.fst ∧ r.isSome = true) ∨
            ("write" ∈ rest.map Prod.fst ∧
              (some v : Option (List String)).isSome = true) ∨
            ¬ (rest.map Prod.fst).Nodup := by
          rcases hbad with ⟨hmem, hsome⟩ | ⟨_, hsome⟩ | hnd
          · rw [List.map_cons] at hmem
            rcases List.mem_cons.mp hmem with hh | hh
            · simp at hh
            · exact Or.inl ⟨hh, hsome⟩
          · cases hsome
          · rw [List.map_cons, List.nodup_cons] at hnd
            by_cases hw : "write" ∈ rest.map Prod.fst
            · exact Or.inr (Or.inl ⟨hw, rfl⟩)
            · exact Or.inr (Or.inr (fun hnodup => hnd ⟨hw, hnodup⟩))
        obtain ⟨s, hsv, herr, hloc⟩ :=
          parseSections_error rest r (some v) hvrest hbad'
        refine ⟨s, hsv, by rw [hstep]; exact herr, ?_⟩
        rcases hloc with ⟨hse, hsome⟩ | ⟨hse, _⟩ | hcount
        · exact Or.inl ⟨hse, hsome⟩
        · subst hse
          refine Or.inr (Or.inr ?_)
          have h1 : 0 < (rest.map Prod.fst).count "write" :=
            List.count_pos_iff.mpr
              (parseSections_sectionTwice_mem rest r (some v) "write" herr)
          have h2 : ((("write", v) :: rest).map Prod.fst).count "write" =
              (rest.map Prod.fst).count "write" + 1 := by
            simp
          omega
        · refine Or.inr (Or.inr ?_)
          have hle : (rest.map Prod.fst).count s ≤
              ((("write", v) :: rest).map Prod.fst).count s := by
            rw [List.map_cons, List.count_cons]
            omega
          omega

/-- Claim C10: when every section keyword is `read` or `write` but some
keyword occurs more than once, `Args::parse` fails with the
"found more than once" error for a keyword occurring at least twice —
independently of the names listed, so in particular even when the names
across the repeated sections are pairwise distinct. -/
theorem parse_section_twice
    (sections : List (String × List String))
    (hvalid : ∀ p ∈ sections, p.1 = "read" ∨ p.1 = "write")
    (hdup : ¬ (sections.map Prod.fst).Nodup) :
    ∃ s, (s = "read" ∨ s = "write") ∧
      Args.parse sections = Except.error (ParseError.sectionTwice s) ∧
      2 ≤ (sections.map Prod.fst).count s := by
  obtain ⟨s, hsv, herr, hloc⟩ :=
    parseSections_error sections none none hvalid (Or.inr (Or.inr hdup))
  refine ⟨s, hsv, ?_, ?_⟩
  · unfold Args.parse
    rw [herr]
    rfl
  · rcases hloc with ⟨_, hsome⟩ | ⟨_, hsome⟩ | hcount
    · cases hsome
    · cases hsome
    · exact hcount

/-- Witness for C10: `read` given twice, names pairwise distinct. -/
theorem parse_section_twice_witness :
    (∀ p ∈ [("read", ["a"]), ("write", ["b"]), ("read", ["c"])],
      Prod.fst p = "read" ∨ Prod.fst p = "write") ∧
    (¬ (([("read", ["a"]), ("write", ["b"]), ("read", ["c"])] :
        List (String × List String)).map Prod.fst).Nodup) ∧
    ∃ s, (s = "read" ∨ s = "write") ∧
      Args.parse [("read", ["a"]), ("write", ["b"]), ("read", ["c"])] =
        Except.error (ParseError.sectionTwice s) ∧
      2 ≤ (([("read", ["a"]), ("write", ["b"]), ("read", ["c"])] :
          List (String × List String)).map Prod.fst).count s :=
  ⟨by decide, by decide,
    parse_section_twice [("read", ["a"]), ("write", ["b"]), ("read", ["c"])]
      (by decide) (by decide)⟩

end LockDerive
